import Mathlib

/-!
Shallow embedding of the commonmark tree-to-span converter
(`packages/source-commonmark/src/index.ts`).

The converter consumes a markdown-it token stream, builds a node tree
(`toTree`), and walks that tree (`Parser.walk` together with the generator
`Parser.convertTokenToAnnotation`) producing a plain-text buffer plus a list
of annotations.  Machine strings are Lean `String`s (offsets count Unicode
scalar values), the mutable parser state is passed explicitly, and the two
external collaborators that the file imports — the `entities.decodeHTML5`
function and the per-type handler table passed to the `Parser` constructor —
are parameters of an `Env` record (the default document uses an empty
handler table, `env0`).  A traversal that would crash at runtime (a property
access on the undefined `currentNode` after an unmatched close) is modelled
as `none`.
-/

/-- Attribute values observed at runtime: markdown-it token attrs hold
strings, and the walker additionally pushes a boolean (`tight`); heading
levels are numbers and a failed `parseInt` yields `NaN`. -/
inductive AttrValue where
  | str (s : String)
  | num (n : Nat)
  | bool (b : Bool)
  | nan
deriving DecidableEq, Repr

/-- A JS object used as an attribute bag: insertion-ordered key/value list
in which every key occurs at most once. -/
abbrev Attributes := List (String × AttrValue)

/-- JS property assignment `m[k] = v`: overwrite in place if the key exists,
otherwise append at the end (JS objects preserve insertion order). -/
def setAttr (m : Attributes) (k : String) (v : AttrValue) : Attributes :=
  if m.any (fun p => p.1 = k) then
    m.map (fun p => if p.1 = k then (k, v) else p)
  else m ++ [(k, v)]

/-- `MarkdownIt.Token`: the fields of a markdown-it token that the converter
reads.  `attrs` uses `AttrValue` because the walker pushes a boolean onto it. -/
inductive Token where
  | mk (type : String) (tag : String) (nesting : Int) (content : String)
       (children : List Token) (attrs : List (String × AttrValue))
       (hidden : Bool) (info : String)

def Token.type : Token → String
  | .mk ty _ _ _ _ _ _ _ => ty

def Token.tag : Token → String
  | .mk _ tg _ _ _ _ _ _ => tg

def Token.nesting : Token → Int
  | .mk _ _ n _ _ _ _ _ => n

def Token.content : Token → String
  | .mk _ _ _ c _ _ _ _ => c

def Token.children : Token → List Token
  | .mk _ _ _ _ ch _ _ _ => ch

def Token.attrs : Token → List (String × AttrValue)
  | .mk _ _ _ _ _ a _ _ => a

def Token.hidden : Token → Bool
  | .mk _ _ _ _ _ _ h _ => h

def Token.info : Token → String
  | .mk _ _ _ _ _ _ _ i => i

/-- `token.attrs = token.attrs || []; token.attrs.push(kv)` — append one
attribute pair to a token (the `|| []` is subsumed by the list model). -/
def Token.pushAttr : Token → String × AttrValue → Token
  | .mk ty tg n c ch a h i, kv => .mk ty tg n c ch (a ++ [kv]) h i

/-- `getAttributes` (index.ts:14-19): reduce the token's attr pairs into an
object, later pairs overwriting earlier ones. -/
def getAttributes (token : Token) : Attributes :=
  token.attrs.foldl (fun attributes attrPair => setAttr attributes attrPair.1 attrPair.2) []

/-- `Node` (index.ts:21-28): either a text node carrying a literal value or
an element node with a name, its open token, an optional close token and a
list of children.  (The `parent` back-reference is only used for ascent in
`toTree` and is represented by the traversal stack instead.)  Every element
node that `toTree` creates carries its open token. -/
inductive Node where
  | text (value : String)
  | elem (name : String) («open» : Token) (close : Option Token) (children : List Node)

/-- `node.name` — "text" for text nodes. -/
def Node.name : Node → String
  | .text _ => "text"
  | .elem nm _ _ _ => nm

/-- `node.value` — literal string of a text node (element nodes have none). -/
def Node.value : Node → String
  | .text v => v
  | .elem _ _ _ _ => ""

/-- `node.children` — text nodes have no children array. -/
def Node.children : Node → List Node
  | .text _ => []
  | .elem _ _ _ ch => ch

/-- `node.open.hidden` — whether the node's open token carries markdown-it's
`hidden` flag (text nodes have no open token). -/
def Node.openHidden : Node → Bool
  | .text _ => false
  | .elem _ o _ _ => o.hidden

/-- `token.type.replace(/_open$/, '')` (index.ts:59): drop a final "_open"
(the suffix test is spelled on the character list). -/
def stripOpenSuffix (s : String) : String :=
  if s.toList.drop (s.length - 5) = "_open".toList then s.dropRight 5 else s

/-- The backtick character checked by the `code_inline` padding. -/
def backquoteChar : Char := Char.ofNat 96

/-- index.ts:71-83 — pad an inline code span with spaces when its first or
last character is a backtick (the second check runs on the possibly already
prepended text, exactly as in the source). -/
def padInlineCode (content : String) : String :=
  let text := if content.toList.head? = some backquoteChar then " " ++ content else content
  if text.toList.getLast? = some backquoteChar then text ++ " " else text

/-- An element that has been opened (nesting 1) but not yet closed: its name,
its open token, and the children accumulated so far.  This materialises the
source's `currentNode` pointer chain. -/
structure Frame where
  name : String
  «open» : Token
  children : List Node

/-- The mutable state of `toTree`: the stack of open frames (innermost
first), the root's children, and whether `currentNode` has become
`undefined` after a close with an empty stack (`currentNode = parent` on the
root).  In the dead state any further touch of `currentNode` is a crash. -/
structure TreeSt where
  stack : List Frame
  root : List Node
  dead : Bool

/-- `currentNode.children.push(n)` — crashes (none) when `currentNode` is
undefined. -/
def TreeSt.pushNode (st : TreeSt) (n : Node) : Option TreeSt :=
  if st.dead then none
  else
    match st.stack with
    | f :: rest => some ⟨⟨f.name, f.«open», f.children ++ [n]⟩ :: rest, st.root, false⟩
    | [] => some ⟨[], st.root ++ [n], false⟩

/-- Push a list of nodes one by one (used to splice the children produced by
an `inline` token into the current position). -/
def spliceNodes (st : TreeSt) (ns : List Node) : Option TreeSt :=
  match ns with
  | [] => some st
  | n :: rest =>
    match st.pushNode n with
    | none => none
    | some st' => spliceNodes st' rest

/-- Turn the remaining open frames into nodes at the end of a traversal.  In
the source an opened node is already sitting in its parent's children (it was
pushed on open, with `close` initialised to the open token), so an unclosed
frame becomes an element whose `close` is its own open token. -/
def collapseGo : List Frame → List Node → List Node → List Node
  | [], pending, root => root ++ pending
  | f :: rest, pending, root =>
      collapseGo rest [Node.elem f.name f.«open» (some f.«open») (f.children ++ pending)] root

def collapse (stack : List Frame) (root : List Node) : List Node :=
  collapseGo stack [] root

mutual
/-- The body of `toTree`'s `forEach` (index.ts:32-95), one token at a time. -/
def toTreeStep (t : Token) (st : TreeSt) : Option TreeSt :=
  match t with
  | .mk ty tg nest cont children _ _ _ =>
    if tg = "br" ∧ ty = "softbreak" then
      -- index.ts:34-39: softbreak becomes a literal "\n" text node
      st.pushNode (.text "\n")
    else if ty = "text" then
      -- index.ts:40-45
      st.pushNode (.text cont)
    else if ty = "inline" then
      -- index.ts:46-47: recurse into the children at the current position
      if st.dead then (if children.length = 0 then some st else none)
      else
        match toTreeRun children ⟨[], [], false⟩ with
        | none => none
        | some sub => spliceNodes st (collapse sub.stack sub.root)
    else if 0 < children.length then
      -- index.ts:48-56: a token carrying children becomes a node (no close)
      if st.dead then none
      else
        match toTreeRun children ⟨[], [], false⟩ with
        | none => none
        | some sub => st.pushNode (.elem ty t none (collapse sub.stack sub.root))
    else if nest = 1 then
      -- index.ts:57-66: open a frame (node pushed with open = close = token)
      if st.dead then none
      else some ⟨⟨stripOpenSuffix ty, t, []⟩ :: st.stack, st.root, false⟩
    else if nest = -1 then
      -- index.ts:67-69: set close and ascend; on the root this detaches
      -- currentNode (st.dead), it does not raise any error
      if st.dead then none
      else
        match st.stack with
        | f :: rest => TreeSt.pushNode ⟨rest, st.root, false⟩ (.elem f.name f.«open» (some t) f.children)
        | [] => some ⟨[], st.root, true⟩
    else
      -- index.ts:70-94: atomic leaf — one synthetic text child
      if st.dead then none
      else
        let text := if ty = "code_inline" then padInlineCode cont else cont
        st.pushNode (.elem ty t (some t) [.text text])

def toTreeRun : List Token → TreeSt → Option TreeSt
  | [], st => some st
  | t :: ts, st =>
    match toTreeStep t st with
    | none => none
    | some st' => toTreeRun ts st'
end

/-- `toTree(tokens, { children: [] }).children` as used by the `Parser`
constructor (index.ts:116): run the traversal from an empty root and return
the root's children; `none` models a crash of the traversal. -/
def toTree (tokens : List Token) : Option (List Node) :=
  match toTreeRun tokens ⟨[], [], false⟩ with
  | none => none
  | some st => some (collapse st.stack st.root)

mutual
/-- `getText` (index.ts:100-109): collect, in document order, the text nodes
found anywhere below a node (recursing through element children). -/
def getText : Node → List Node
  | .text _ => []
  | .elem _ _ _ children => getTextList children

def getTextList : List Node → List Node
  | [] => []
  | c :: cs =>
    (match c with
     | .text _ => [c]
     | .elem _ _ _ _ => getText c) ++ getTextList cs
end

/-- index.ts:133-136: a list is tight when some item has a paragraph child
whose open token is hidden. -/
def isTight (children : List Node) : Bool :=
  children.any fun items =>
    (items.children.filter fun child => child.name = "paragraph").any fun child =>
      child.openHidden

/-- An annotation `{type, attributes, start, end}`. -/
structure Annotation where
  type : String
  attributes : Attributes
  start : Nat
  «end» : Nat
deriving DecidableEq, Repr

/-- The parser's mutable fields (index.ts:113-115): the content buffer and
the annotation collection. -/
structure ParserState where
  content : String
  annotations : List Annotation
deriving DecidableEq, Repr

/-- The converter's two external collaborators: the handler table given to
the `Parser` constructor and the `entities.decodeHTML5` function. -/
structure Env where
  handlers : String → Option (Token → List (String × AttrValue))
  decodeHTML5 : String → String

/-- The environment of the default document: empty handler table (the
decoder is irrelevant and taken literal). -/
def env0 : Env := ⟨fun _ => none, fun s => s⟩

/-- The placeholder unit `'￼'` appended for each non-text node. -/
def objStr : String := "￼"

/-- `open.info.trim()` — strip whitespace from both ends. -/
def trimString (s : String) : String :=
  String.mk (((s.toList.dropWhile fun c => c.isWhitespace).reverse.dropWhile fun c => c.isWhitespace).reverse)

/-- `parseInt(open.tag[1], 10)` (index.ts:166): the digit at index 1 of the
tag, `NaN` when that character is missing or not a digit. -/
def headingLevel (tag : String) : AttrValue :=
  match tag.toList.get? 1 with
  | some c => if c.isDigit then AttrValue.num (c.toNat - 48) else AttrValue.nan
  | none => AttrValue.nan

/-- First half of `convertTokenToAnnotation` (index.ts:149-159), run on
entering a node: record `start`, append one placeholder, push the open
marker `[start, start+1)`. -/
def convertOpen (name : String) (st : ParserState) : ParserState :=
  let start := st.content.length
  ⟨st.content ++ objStr,
   st.annotations ++
     [⟨"parse-token", [("type", AttrValue.str (name ++ "_open"))], start, start + 1⟩]⟩

/-- The attribute computation of the close phase (index.ts:164-174): base
attributes from the open token, the heading level, the decoded fence info,
then the per-type handler patch. -/
def closeAttributes (env : Env) (name : String) («open» : Token) : Attributes :=
  let attributes := getAttributes «open»
  let attributes := if name = "heading" then setAttr attributes "level" (headingLevel «open».tag) else attributes
  let attributes :=
    if name = "fence" then
      setAttr attributes "info" (AttrValue.str (env.decodeHTML5 (trimString «open».info)))
    else attributes
  match env.handlers name with
  | some h => (h «open»).foldl (fun a p => setAttr a p.1 p.2) attributes
  | none => attributes

/-- Second half of `convertTokenToAnnotation` (index.ts:161-187), run on
leaving a node: append the closing placeholder, let `end` be the new buffer
length, push the close marker `[end-1, end)` and then the final semantic
annotation `[start, end)`. -/
def convertClose (env : Env) (name : String) («open» : Token) (start : Nat)
    (st : ParserState) : ParserState :=
  let content := st.content ++ objStr
  let endPos := content.length
  ⟨content,
   st.annotations ++
     [⟨"parse-token", [("type", AttrValue.str (name ++ "_close"))], endPos - 1, endPos⟩,
      ⟨name, closeAttributes env name «open», start, endPos⟩]⟩

/-- The in-place token mutations `walk` performs before converting a node
(index.ts:124-139): an image token gets the gathered alt text pushed onto
its attrs, a list token gets the computed `tight` flag pushed. -/
def mungeOpen (name : String) («open» : Token) (children : List Node) : Token :=
  let o1 :=
    if name = "image" then
      «open».pushAttr ("alt", AttrValue.str (String.join ((getTextList children).map Node.value)))
    else «open»
  if name = "bullet_list" ∨ name = "ordered_list" then
    o1.pushAttr ("tight", AttrValue.bool (isTight children))
  else o1

mutual
/-- `Parser.walk` on a single node (index.ts:120-144): text appends its
value; an element runs the open phase, walks its children (an image's
children having been discarded), and runs the close phase.  (The source
dispatches on `node.name === 'text'`; in every tree `toTree` builds, a node
is named "text" exactly when it is a value node, so the walker dispatches on
the constructor.) -/
def walkNode (env : Env) : Node → ParserState → ParserState
  | .text value, st => ⟨st.content ++ value, st.annotations⟩
  | .elem name «open» _ children, st =>
    let start := st.content.length
    let st1 := convertOpen name st
    let st2 := if name = "image" then st1 else walkList env children st1
    convertClose env name (mungeOpen name «open» children) start st2

def walkList (env : Env) : List Node → ParserState → ParserState
  | [], st => st
  | n :: ns, st => walkList env ns (walkNode env n st)
end

/-- The `Parser` constructor (index.ts:112-117): build the tree, then walk
its root children starting from an empty buffer; `none` models a crash of
the tree construction. -/
def parse (env : Env) (tokens : List Token) : Option ParserState :=
  match toTree tokens with
  | none => none
  | some nodes => some (walkList env nodes ⟨"", []⟩)

/- ### Derived pure views used by the proofs -/

mutual
/-- The text a node appends to the buffer: its literal value, or the two
placeholder units around its (non-discarded) children's text. -/
def nodeText : Node → String
  | .text v => v
  | .elem name _ _ children =>
    objStr ++ (if name = "image" then "" else nodesText children) ++ objStr

def nodesText : List Node → String
  | [] => ""
  | n :: ns => nodeText n ++ nodesText ns
end

/-- The children the walker actually recurses into (an image's children are
discarded before the walk). -/
def Node.walkedChildren : Node → List Node
  | .text _ => []
  | .elem name _ _ children => if name = "image" then [] else children

/-- `D` is a strict descendant of `A` along walked children. -/
inductive Desc : Node → Node → Prop
  | child {c p : Node} : c ∈ p.walkedChildren → Desc c p
  | deeper {d c p : Node} : c ∈ p.walkedChildren → Desc d c → Desc d p

/-- The final semantic annotation an element node contributes when its open
phase starts at offset `p` (arbitrary for text nodes, which contribute
none). -/
def finalAnnAt (env : Env) (node : Node) (p : Nat) : Annotation :=
  match node with
  | .text _ => ⟨"text", [], p, p⟩
  | .elem name «open» cls children =>
    ⟨name, closeAttributes env name (mungeOpen name «open» children), p,
     p + (nodeText (Node.elem name «open» cls children)).length⟩

mutual
/-- All literal text values below a node, in document order (the reading of
"all literal text found anywhere in the node's subtree"). -/
def subtreeTexts : Node → List String
  | .text v => [v]
  | .elem _ _ _ children => subtreeTextsList children

def subtreeTextsList : List Node → List String
  | [] => []
  | n :: ns => subtreeTexts n ++ subtreeTextsList ns
end

mutual
/-- Total length of literal text as the claim counts it: every text value in
the tree, including those below an image. -/
def rawTextLen : Node → Nat
  | .text v => v.length
  | .elem _ _ _ children => rawTextLenList children

def rawTextLenList : List Node → Nat
  | [] => 0
  | n :: ns => rawTextLen n + rawTextLenList ns
end

mutual
/-- Number of non-text nodes as the claim counts them: every element in the
tree, including those below an image. -/
def rawElemCount : Node → Nat
  | .text _ => 0
  | .elem _ _ _ children => 1 + rawElemCountList children

def rawElemCountList : List Node → Nat
  | [] => 0
  | n :: ns => rawElemCount n + rawElemCountList ns
end

mutual
/-- Total length of literal text the walker actually appends: text below an
image is discarded. -/
def effTextLen : Node → Nat
  | .text v => v.length
  | .elem name _ _ children => if name = "image" then 0 else effTextLenList children

def effTextLenList : List Node → Nat
  | [] => 0
  | n :: ns => effTextLen n + effTextLenList ns
end

mutual
/-- Number of element nodes the walker actually visits: elements below an
image are discarded. -/
def effElemCount : Node → Nat
  | .text _ => 0
  | .elem name _ _ children => 1 + (if name = "image" then 0 else effElemCountList children)

def effElemCountList : List Node → Nat
  | [] => 0
  | n :: ns => effElemCount n + effElemCountList ns
end

mutual
/-- The annotations a node's walk appends when its open phase starts at
buffer offset `p` (proved equal to the stateful walk in `walk_run`): the
open marker, the annotations of the walked children shifted past the
opening placeholder, the close marker and the final semantic annotation. -/
def nodeAnns (env : Env) : Node → Nat → List Annotation
  | .text _, _ => []
  | .elem name o _ children, p =>
    let inner := if name = "image" then "" else nodesText children
    let endPos := p + 1 + inner.length + 1
    ⟨"parse-token", [("type", AttrValue.str (name ++ "_open"))], p, p + 1⟩ ::
      (if name = "image" then [] else nodesAnns env children (p + 1)) ++
      [⟨"parse-token", [("type", AttrValue.str (name ++ "_close"))], endPos - 1, endPos⟩,
       ⟨name, closeAttributes env name (mungeOpen name o children), p, endPos⟩]

/-- List version of `nodeAnns`: each node starts where the previous one's
text ended. -/
def nodesAnns (env : Env) : List Node → Nat → List Annotation
  | [], _ => []
  | n :: ns, p => nodeAnns env n p ++ nodesAnns env ns (p + (nodeText n).length)
end

/- ### Concrete token fixtures for witnesses and counterexamples -/

/-- A markdown-it soft line break token (`type: "softbreak"`, `tag: "br"`). -/
def sbTok : Token := .mk "softbreak" "br" 0 "" [] [] false ""

/-- A lone closing token (`nesting: -1`) with no matching open. -/
def emCloseTok : Token := .mk "em_close" "" (-1) "" [] [] false ""

/-- A plain text token. -/
def textTok (s : String) : Token := .mk "text" "" 0 s [] [] false ""

/-- An emphasis opening token (`nesting: 1`). -/
def emOpenTok : Token := .mk "em_open" "" 1 "" [] [] false ""

/-- A level-2 heading opening token. -/
def h2OpenTok : Token := .mk "heading_open" "h2" 1 "" [] [] false ""

/-- An image token: markdown-it gives it children (its inline alt content). -/
def imgTok : Token := .mk "image" "img" 0 "" [textTok "a", emOpenTok, emCloseTok] [] false ""

/-- A hidden paragraph opening token (tight-list form). -/
def hidParaTok : Token := .mk "paragraph_open" "p" 1 "" [] [] true ""

/-- A visible paragraph opening token. -/
def plainParaTok : Token := .mk "paragraph_open" "p" 1 "" [] [] false ""

/-- A list item opening token. -/
def itemTok : Token := .mk "list_item_open" "li" 1 "" [] [] false ""

/-- A bullet list opening token. -/
def listTok : Token := .mk "bullet_list_open" "ul" 1 "" [] [] false ""

/-- A fence token with a raw, undecoded and untrimmed info string. -/
def fenceTok : Token := .mk "fence" "code" 0 "let x" [] [] false "  rust  "

/- ### General lemmas about the walk -/

theorem objStr_length : objStr.length = 1 := rfl

theorem walkList_nil (env : Env) (st : ParserState) : walkList env [] st = st := by
  simp [walkList]

theorem walkList_cons (env : Env) (n : Node) (ns : List Node) (st : ParserState) :
    walkList env (n :: ns) st = walkList env ns (walkNode env n st) := by
  simp [walkList]

theorem walkNode_text (env : Env) (v : String) (st : ParserState) :
    walkNode env (Node.text v) st = ⟨st.content ++ v, st.annotations⟩ := by
  simp [walkNode]

/-- The element case of the walk, written as the composition of the two
phases of `convertTokenToAnnotation` around the walk of the (possibly
discarded) children. -/
theorem walkNode_elem (env : Env) (name : String) (o : Token) (cls : Option Token)
    (children : List Node) (st : ParserState) :
    walkNode env (Node.elem name o cls children) st =
      convertClose env name (mungeOpen name o children) st.content.length
        (walkList env (if name = "image" then [] else children) (convertOpen name st)) := by
  by_cases h : name = "image" <;> simp [walkNode, h, walkList]

/-- The walk only ever appends to the buffer, and what a node appends is the
node's own text. -/
theorem walk_content (env : Env) : ∀ (n : Node) (st : ParserState),
    (walkNode env n st).content = st.content ++ nodeText n := by
  refine walkNode.induct env
    (fun n st => (walkNode env n st).content = st.content ++ nodeText n)
    (fun ns st => (walkList env ns st).content = st.content ++ nodesText ns)
    ?_ ?_ ?_ ?_
  · intro value st
    simp [walkNode, nodeText]
  · intro name o cls children st st1 ih
    have ih' : (walkList env children (convertOpen name st)).content
        = (convertOpen name st).content ++ nodesText children := ih
    simp only [convertOpen] at ih'
    by_cases h : name = "image" <;>
      simp [walkNode, h, nodeText, convertOpen, convertClose, ih', String.append_assoc]
  · intro st
    simp [walkList, nodesText]
  · intro n ns st ih1 ih2
    simp [walkList, nodesText, ih1, ih2, String.append_assoc]

/-- List version of `walk_content`. -/
theorem walks_content (env : Env) : ∀ (ns : List Node) (st : ParserState),
    (walkList env ns st).content = st.content ++ nodesText ns := by
  intro ns
  induction ns with
  | nil => intro st; simp [walkList, nodesText]
  | cons n ns ih =>
      intro st
      simp [walkList, nodesText, ih, walk_content, String.append_assoc]

/-- Master decomposition: the walk appends the node's text to the buffer and
the node's annotations (at the offset where the node starts) to the
collection — nothing else, and nothing depending on the prior state. -/
theorem walk_run (env : Env) : ∀ (n : Node) (st : ParserState),
    walkNode env n st =
      ⟨st.content ++ nodeText n, st.annotations ++ nodeAnns env n st.content.length⟩ := by
  refine walkNode.induct env
    (fun n st => walkNode env n st =
      ⟨st.content ++ nodeText n, st.annotations ++ nodeAnns env n st.content.length⟩)
    (fun ns st => walkList env ns st =
      ⟨st.content ++ nodesText ns, st.annotations ++ nodesAnns env ns st.content.length⟩)
    ?_ ?_ ?_ ?_
  · intro value st
    simp [walkNode, nodeText, nodeAnns]
  · intro name o cls children st st1 ih
    have ih' : walkList env children (convertOpen name st) =
        ⟨(convertOpen name st).content ++ nodesText children,
         (convertOpen name st).annotations ++
           nodesAnns env children (convertOpen name st).content.length⟩ := ih
    simp only [convertOpen] at ih'
    by_cases h : name = "image" <;>
      simp [walkNode, h, nodeText, nodeAnns, convertOpen, convertClose, walkList, ih',
        String.append_assoc, List.append_assoc, objStr_length]
    omega
  · intro st
    simp [walkList, nodesText, nodesAnns]
  · intro n ns st ih1 ih2
    rw [walkList_cons, ih2, ih1]
    simp [nodesText, nodesAnns, String.append_assoc, List.append_assoc]

/-- List version of `walk_run`. -/
theorem walks_run (env : Env) : ∀ (ns : List Node) (st : ParserState),
    walkList env ns st =
      ⟨st.content ++ nodesText ns, st.annotations ++ nodesAnns env ns st.content.length⟩ := by
  intro ns
  induction ns with
  | nil => intro st; simp [walkList, nodesText, nodesAnns]
  | cons n ns ih =>
      intro st
      rw [walkList_cons, ih, walk_run]
      simp [nodesText, nodesAnns, String.append_assoc, List.append_assoc]

theorem nodeText_elem_length (name : String) (o : Token) (cls : Option Token)
    (children : List Node) :
    (nodeText (Node.elem name o cls children)).length =
      (if name = "image" then 0 else (nodesText children).length) + 2 := by
  by_cases h : name = "image" <;> simp [nodeText, h, objStr_length]
  omega

/-- Every annotation a node emits lies inside the node's own span. -/
theorem nodeAnns_bounds (env : Env) : ∀ (n : Node) (p : Nat), ∀ a ∈ nodeAnns env n p,
    p ≤ a.start ∧ a.start ≤ a.«end» ∧ a.«end» ≤ p + (nodeText n).length := by
  refine nodeAnns.induct env
    (fun n p => ∀ a ∈ nodeAnns env n p,
      p ≤ a.start ∧ a.start ≤ a.«end» ∧ a.«end» ≤ p + (nodeText n).length)
    (fun ns p => ∀ a ∈ nodesAnns env ns p,
      p ≤ a.start ∧ a.start ≤ a.«end» ∧ a.«end» ≤ p + (nodesText ns).length)
    ?_ ?_ ?_ ?_
  · intro value p a ha
    simp [nodeAnns] at ha
  · intro name o cls children p ih a ha
    rw [nodeText_elem_length]
    by_cases h : name = "image"
    · simp [nodeAnns, h] at ha
      rcases ha with ha | ha | ha <;> subst ha <;> dsimp only <;> simp [h]
      omega
    · simp [nodeAnns, h] at ha
      rcases ha with ha | ha | ha | ha
      · subst ha
        dsimp only
        simp [h]
      · have hb := ih a ha
        simp [h]
        omega
      · subst ha
        dsimp only
        simp [h]
        omega
      · subst ha
        dsimp only
        simp [h]
        omega
  · intro p a ha
    simp [nodesAnns] at ha
  · intro n ns p ih1 ih2 a ha
    simp only [nodesAnns, List.mem_append] at ha
    rcases ha with ha | ha
    · have := ih1 a ha
      simp [nodesText]
      omega
    · have := ih2 a ha
      simp [nodesText]
      omega

theorem nodesText_cons (n : Node) (ns : List Node) :
    nodesText (n :: ns) = nodeText n ++ nodesText ns := by
  simp [nodesText]

/-- A member of a node list emits its annotations at some offset inside the
list's span, and those annotations are all part of the list's emission. -/
theorem nodesAnns_mem_node (env : Env) (D : Node) :
    ∀ (ns : List Node) (p : Nat), D ∈ ns →
      ∃ q, p ≤ q ∧ q + (nodeText D).length ≤ p + (nodesText ns).length ∧
        ∀ a ∈ nodeAnns env D q, a ∈ nodesAnns env ns p := by
  intro ns
  induction ns with
  | nil => intro p h; simp at h
  | cons n ns ih =>
      intro p h
      rcases List.mem_cons.mp h with h | h
      · subst h
        refine ⟨p, le_rfl, ?_, ?_⟩
        · simp [nodesText_cons, String.length_append]
        · intro a ha
          simp [nodesAnns]
          exact Or.inl ha
      · obtain ⟨q, h1, h2, h3⟩ := ih (p + (nodeText n).length) h
        refine ⟨q, by omega, ?_, ?_⟩
        · simp only [nodesText_cons, String.length_append]
          omega
        · intro a ha
          simp [nodesAnns]
          exact Or.inr (h3 a ha)

/-- A node with a walked child is a non-image element containing it. -/
theorem walkedChildren_elem {c A : Node} (h : c ∈ A.walkedChildren) :
    ∃ name o cls children, A = Node.elem name o cls children ∧ name ≠ "image" ∧ c ∈ children := by
  match A with
  | Node.text v => simp [Node.walkedChildren] at h
  | Node.elem name o cls children =>
    by_cases hi : name = "image"
    · simp [Node.walkedChildren, hi] at h
    · simp only [Node.walkedChildren, hi, if_false] at h
      exact ⟨name, o, cls, children, rfl, hi, h⟩

/-- The annotations of a strict descendant (along walked children) are
emitted strictly inside the ancestor's span and belong to the ancestor's
emission. -/
theorem desc_anns (env : Env) (D : Node) :
    ∀ {A : Node}, Desc D A → ∀ p : Nat,
      ∃ q, p + 1 ≤ q ∧ q + (nodeText D).length + 1 ≤ p + (nodeText A).length ∧
        ∀ a ∈ nodeAnns env D q, a ∈ nodeAnns env A p := by
  intro A hD
  induction hD with
  | child hmem =>
      intro p
      obtain ⟨name, o, cls, children, rfl, hni, hmem'⟩ := walkedChildren_elem hmem
      obtain ⟨q, h1, h2, h3⟩ := nodesAnns_mem_node env _ children (p + 1) hmem'
      refine ⟨q, h1, ?_, ?_⟩
      · rw [nodeText_elem_length]
        simp only [hni, if_false]
        omega
      · intro a ha
        simp [nodeAnns, hni]
        exact Or.inr (Or.inl (h3 a ha))
  | deeper hmem hd ih =>
      intro p
      obtain ⟨name, o, cls, children, rfl, hni, hmem'⟩ := walkedChildren_elem hmem
      obtain ⟨r, hr1, hr2, hr3⟩ := nodesAnns_mem_node env _ children (p + 1) hmem'
      obtain ⟨q, hq1, hq2, hq3⟩ := ih r
      refine ⟨q, by omega, ?_, ?_⟩
      · rw [nodeText_elem_length]
        simp only [hni, if_false]
        omega
      · intro a ha
        have hac := hq3 a ha
        simp [nodeAnns, hni]
        exact Or.inr (Or.inl (hr3 a hac))

theorem getLast_cons_append_two {A : Type _} (x c f : A) (ys : List A) :
    ((x :: ys) ++ [c, f]).getLast? = some f := by
  have h : (x :: ys) ++ [c, f] = ((x :: ys) ++ [c]) ++ f :: [] := by simp
  rw [h, List.getLast?_append_cons]
  rfl

/-- The element's own final semantic annotation is the last annotation it
emits. -/
theorem nodeAnns_elem_getLast (env : Env) (name : String) (o : Token) (cls : Option Token)
    (children : List Node) (p : Nat) :
    (nodeAnns env (Node.elem name o cls children) p).getLast? =
      some (finalAnnAt env (Node.elem name o cls children) p) := by
  have hfin : p + 1 + (if name = "image" then "" else nodesText children).length + 1 =
      p + (nodeText (Node.elem name o cls children)).length := by
    rw [nodeText_elem_length]
    by_cases h : name = "image" <;> simp [h]
    omega
  simp only [nodeAnns]
  rw [getLast_cons_append_two]
  simp [finalAnnAt, hfin]

theorem finalAnn_mem (env : Env) (name : String) (o : Token) (cls : Option Token)
    (children : List Node) (p : Nat) :
    finalAnnAt env (Node.elem name o cls children) p ∈
      nodeAnns env (Node.elem name o cls children) p := by
  have h := nodeAnns_elem_getLast env name o cls children p
  obtain ⟨hne, heq⟩ := List.mem_getLast?_eq_getLast h
  rw [heq]
  exact List.getLast_mem hne

theorem lookup_map_self (k : String) (v : AttrValue) :
    ∀ (m : Attributes), m.any (fun p => p.1 = k) = true →
      ((m.map fun p => if p.1 = k then (k, v) else p).lookup k) = some v := by
  intro m
  induction m with
  | nil => intro h; simp at h
  | cons q m ih =>
      intro h
      by_cases hq : q.1 = k
      · rw [List.map_cons, if_pos hq]
        simp [List.lookup]
      · rw [List.map_cons, if_neg hq]
        simp only [List.any_cons, hq, decide_False, Bool.false_or] at h
        have hk : (k == q.1) = false := by
          simp only [beq_eq_false_iff_ne]
          exact fun e => hq e.symm
        simp [List.lookup, hk, ih h]

theorem lookup_append_self (k : String) (v : AttrValue) :
    ∀ (m : Attributes), m.any (fun p => p.1 = k) = false →
      ((m ++ [(k, v)]).lookup k) = some v := by
  intro m
  induction m with
  | nil => intro _; simp [List.lookup]
  | cons q m ih =>
      intro h
      simp only [List.any_cons, Bool.or_eq_false_iff, decide_eq_false_iff_not] at h
      have hk : (k == q.1) = false := by
        simp only [beq_eq_false_iff_ne]
        exact fun e => h.1 e.symm
      rw [List.cons_append]
      simp [List.lookup, hk, ih (by simpa using h.2)]

/-- A JS assignment `m[k] = v` makes `m[k]` read back `v`. -/
theorem lookup_setAttr_self (m : Attributes) (k : String) (v : AttrValue) :
    (setAttr m k v).lookup k = some v := by
  by_cases h : m.any (fun p => p.1 = k)
  · simp only [setAttr, h, if_true]
    exact lookup_map_self k v m h
  · simp only [setAttr, Bool.not_eq_true] at h ⊢
    rw [if_neg (by simp [h])]
    exact lookup_append_self k v m h

/-- Pushing an attribute pair onto a token makes `getAttributes` end with the
corresponding assignment. -/
theorem getAttributes_pushAttr (t : Token) (kv : String × AttrValue) :
    getAttributes (t.pushAttr kv) = setAttr (getAttributes t) kv.1 kv.2 := by
  match t with
  | .mk ty tg n c ch a h i =>
    simp [getAttributes, Token.pushAttr, Token.attrs, List.foldl_append]

/-- List version of `nodeAnns_bounds`. -/
theorem nodesAnns_bounds (env : Env) : ∀ (ns : List Node) (p : Nat),
    ∀ a ∈ nodesAnns env ns p,
      p ≤ a.start ∧ a.start ≤ a.«end» ∧ a.«end» ≤ p + (nodesText ns).length := by
  intro ns
  induction ns with
  | nil => intro p a ha; simp [nodesAnns] at ha
  | cons n ns ih =>
      intro p a ha
      simp only [nodesAnns, List.mem_append] at ha
      rcases ha with ha | ha
      · have := nodeAnns_bounds env n p a ha
        simp only [nodesText_cons, String.length_append]
        omega
      · have := ih (p + (nodeText n).length) a ha
        simp only [nodesText_cons, String.length_append]
        omega

/-- `isTight`, read as the spec reads it. -/
theorem isTight_iff (children : List Node) :
    isTight children = true ↔
      ∃ item ∈ children, ∃ c ∈ item.children, c.name = "paragraph" ∧ c.openHidden = true := by
  simp only [isTight, List.any_eq_true, List.mem_filter, decide_eq_true_eq]
  constructor
  · rintro ⟨item, hitem, c, ⟨hc, hname⟩, hhid⟩
    exact ⟨item, hitem, c, hc, hname, hhid⟩
  · rintro ⟨item, hitem, c, hc, hname, hhid⟩
    exact ⟨item, hitem, c, ⟨hc, hname⟩, hhid⟩

/-- `getText` collects exactly the literal text values of the subtrees, in
document order. -/
theorem getText_values : ∀ (ns : List Node),
    (getTextList ns).map Node.value = subtreeTextsList ns := by
  refine getTextList.induct
    (fun n => (getText n).map Node.value =
      (match n with
       | Node.text _ => []
       | Node.elem _ _ _ children => subtreeTextsList children))
    (fun ns => (getTextList ns).map Node.value = subtreeTextsList ns)
    ?_ ?_ ?_ ?_
  · intro v; simp [getText]
  · intro name o cls children ih
    simpa [getText] using ih
  · simp [getTextList, subtreeTextsList]
  · intro c rest ih1 ih2
    cases c with
    | text v =>
        simp [getTextList, subtreeTextsList, subtreeTexts, ih2, Node.value]
    | elem name o cls children =>
        simp only [] at ih1
        simp [getTextList, subtreeTextsList, subtreeTexts, ih1, ih2]

/-- Each softbreak token, balance-neutral, appends one "\n" text node. -/
theorem toTreeRun_softbreaks : ∀ (k : Nat) (r : List Node),
    toTreeRun (List.replicate k sbTok) ⟨[], r, false⟩ =
      some ⟨[], r ++ List.replicate k (Node.text "\n"), false⟩ := by
  intro k
  induction k with
  | zero => intro r; simp [toTreeRun]
  | succ k ih =>
      intro r
      rw [List.replicate_succ]
      have hstep : toTreeStep sbTok ⟨[], r, false⟩ = some ⟨[], r ++ [Node.text "\n"], false⟩ := rfl
      simp only [toTreeRun, hstep]
      rw [ih (r ++ [Node.text "\n"])]
      simp [List.replicate_succ]

theorem nodesText_replicate_nl (k : Nat) :
    nodesText (List.replicate k (Node.text "\n")) = String.mk (List.replicate k '\n') := by
  induction k with
  | zero => simp [nodesText]
  | succ k ih =>
      rw [List.replicate_succ, nodesText_cons, ih, List.replicate_succ]
      rfl

theorem nodesAnns_replicate_nl (env : Env) (k : Nat) (p : Nat) :
    nodesAnns env (List.replicate k (Node.text "\n")) p = [] := by
  induction k generalizing p with
  | zero => simp [nodesAnns]
  | succ k ih => rw [List.replicate_succ]; simp [nodesAnns, nodeAnns, ih]

/-- The buffer text of a node has one unit per literal character the walk
keeps plus two placeholder units per element the walk visits. -/
theorem nodeText_length_eff : ∀ (n : Node),
    (nodeText n).length = effTextLen n + 2 * effElemCount n := by
  refine nodeText.induct
    (fun n => (nodeText n).length = effTextLen n + 2 * effElemCount n)
    (fun ns => (nodesText ns).length = effTextLenList ns + 2 * effElemCountList ns)
    ?_ ?_ ?_ ?_
  · intro v; simp [nodeText, effTextLen, effElemCount]
  · intro name o cls children ih
    by_cases h : name = "image" <;>
      simp [nodeText, effTextLen, effElemCount, h, String.length_append, objStr_length, ih]
    omega
  · simp [nodesText, effTextLenList, effElemCountList]
  · intro n ns ih1 ih2
    simp [nodesText_cons, effTextLenList, effElemCountList, String.length_append, ih1, ih2]
    omega

/-- List version of `nodeText_length_eff`. -/
theorem nodesText_length_eff : ∀ (ns : List Node),
    (nodesText ns).length = effTextLenList ns + 2 * effElemCountList ns := by
  intro ns
  induction ns with
  | nil => simp [nodesText, effTextLenList, effElemCountList]
  | cons n ns ih =>
      simp [nodesText_cons, effTextLenList, effElemCountList, String.length_append, ih,
        nodeText_length_eff]
      omega

/- ### Claim theorems -/

/-- C1: for every non-text node (with no attribute-mutating special case),
the walk records `start` as the current buffer length, appends one
placeholder unit and pushes the open marker `{type: "parse-token",
attributes: {type: name ++ "_open"}, start, start+1}`; only after the whole
subtree has been walked does it append the closing placeholder, push the
close marker over `[end-1, end)` with `end` the buffer length after that
placeholder, and then push the final semantic annotation
`{type: name, attributes, start, end}` last. -/
theorem claim1_two_phase_emission (env : Env) (name : String) (o : Token)
    (cls : Option Token) (children : List Node) (st : ParserState)
    (h1 : name ≠ "image") (h2 : name ≠ "bullet_list") (h3 : name ≠ "ordered_list") :
    walkNode env (Node.elem name o cls children) st =
      (let start := st.content.length
       let stOpen : ParserState :=
         ⟨st.content ++ objStr,
          st.annotations ++
            [⟨"parse-token", [("type", AttrValue.str (name ++ "_open"))], start, start + 1⟩]⟩
       let stKids := walkList env children stOpen
       let endPos := stKids.content.length + 1
       ⟨stKids.content ++ objStr,
        stKids.annotations ++
          [⟨"parse-token", [("type", AttrValue.str (name ++ "_close"))], endPos - 1, endPos⟩,
           ⟨name, closeAttributes env name o, start, endPos⟩]⟩) := by
  have hm : mungeOpen name o children = o := by
    simp [mungeOpen, h1, h2, h3]
  rw [walkNode_elem, hm]
  simp [h1, convertOpen, convertClose, String.length_append, objStr_length]

theorem claim1_two_phase_emission_witness :
    walkNode env0 (Node.elem "em" emOpenTok none [Node.text "a"]) ⟨"", []⟩ =
      ⟨"￼a￼",
       [⟨"parse-token", [("type", AttrValue.str "em_open")], 0, 1⟩,
        ⟨"parse-token", [("type", AttrValue.str "em_close")], 2, 3⟩,
        ⟨"em", [], 0, 3⟩]⟩ := by
  rw [claim1_two_phase_emission env0 "em" emOpenTok none [Node.text "a"] ⟨"", []⟩
    (by decide) (by decide) (by decide)]
  rfl

/-- C2: for a non-text node `D` that is a descendant of `A` in the (walked)
input tree, the final semantic annotations of `A` and of `D` both end up in
the collection produced by walking `A`, and the descendant's interval nests
inside the ancestor's: `a.start ≤ b.start` and `b.end ≤ a.end`. -/
theorem claim2_nesting_fidelity (env : Env) (A D : Node) (st : ParserState)
    (hD : Desc D A)
    (nm : String) (o : Token) (cls : Option Token) (ch : List Node)
    (hDe : D = Node.elem nm o cls ch) :
    ∃ q : Nat,
      finalAnnAt env A st.content.length ∈ (walkNode env A st).annotations ∧
      finalAnnAt env D q ∈ (walkNode env A st).annotations ∧
      (finalAnnAt env A st.content.length).start ≤ (finalAnnAt env D q).start ∧
      (finalAnnAt env D q).«end» ≤ (finalAnnAt env A st.content.length).«end» := by
  have hAe : ∃ nmA oA clsA chA, A = Node.elem nmA oA clsA chA := by
    cases hD with
    | child hmem =>
        obtain ⟨nmA, oA, clsA, chA, hAeq, _, _⟩ := walkedChildren_elem hmem
        exact ⟨nmA, oA, clsA, chA, hAeq⟩
    | deeper hmem hd =>
        obtain ⟨nmA, oA, clsA, chA, hAeq, _, _⟩ := walkedChildren_elem hmem
        exact ⟨nmA, oA, clsA, chA, hAeq⟩
  obtain ⟨nmA, oA, clsA, chA, hAeq⟩ := hAe
  obtain ⟨q, hq1, hq2, hmem⟩ := desc_anns env D hD st.content.length
  refine ⟨q, ?_, ?_, ?_, ?_⟩
  · rw [walk_run]
    subst hAeq
    exact List.mem_append_right _ (finalAnn_mem env nmA oA clsA chA st.content.length)
  · rw [walk_run]
    refine List.mem_append_right _ ?_
    refine hmem _ ?_
    subst hDe
    exact finalAnn_mem env nm o cls ch q
  · subst hAeq hDe
    simp only [finalAnnAt]
    omega
  · subst hAeq hDe
    simp only [finalAnnAt]
    omega

theorem claim2_nesting_fidelity_witness :
    ∃ q : Nat,
      finalAnnAt env0 (Node.elem "strong" emOpenTok none [Node.elem "em" emOpenTok none []]) 0 ∈
        (walkNode env0 (Node.elem "strong" emOpenTok none [Node.elem "em" emOpenTok none []])
          ⟨"", []⟩).annotations ∧
      finalAnnAt env0 (Node.elem "em" emOpenTok none []) q ∈
        (walkNode env0 (Node.elem "strong" emOpenTok none [Node.elem "em" emOpenTok none []])
          ⟨"", []⟩).annotations ∧
      (finalAnnAt env0 (Node.elem "strong" emOpenTok none [Node.elem "em" emOpenTok none []]) 0).start ≤
        (finalAnnAt env0 (Node.elem "em" emOpenTok none []) q).start ∧
      (finalAnnAt env0 (Node.elem "em" emOpenTok none []) q).«end» ≤
        (finalAnnAt env0 (Node.elem "strong" emOpenTok none [Node.elem "em" emOpenTok none []]) 0).«end» :=
  claim2_nesting_fidelity env0
    (Node.elem "strong" emOpenTok none [Node.elem "em" emOpenTok none []])
    (Node.elem "em" emOpenTok none []) ⟨"", []⟩
    (Desc.child (by simp [Node.walkedChildren]))
    "em" emOpenTok none [] rfl

/-- C3: every annotation of a completed conversion — parse-token markers and
final semantic annotations alike — satisfies
`0 ≤ start ≤ end ≤ length of the final content buffer`. -/
theorem claim3_boundary_wellformed (env : Env) (tokens : List Token) (ps : ParserState)
    (h : parse env tokens = some ps) :
    ∀ a ∈ ps.annotations, 0 ≤ a.start ∧ a.start ≤ a.«end» ∧ a.«end» ≤ ps.content.length := by
  unfold parse at h
  cases htt : toTree tokens with
  | none => rw [htt] at h; exact absurd h (by simp)
  | some nodes =>
      rw [htt] at h
      have hps : ps = walkList env nodes ⟨"", []⟩ := by
        injection h with h'
        exact h'.symm
      subst hps
      rw [walks_run]
      intro a ha
      simp only [] at ha
      have h0 : (("" : String).length) = 0 := rfl
      rw [List.nil_append] at ha
      have hb := nodesAnns_bounds env nodes (("" : String).length) a ha
      rw [h0] at hb
      simp only [String.length_append, h0]
      omega

theorem claim3_boundary_wellformed_witness :
    0 ≤ (3 : Nat) ∧ (3 : Nat) ≤ 4 ∧ (4 : Nat) ≤ ("￼me￼" : String).length :=
  claim3_boundary_wellformed env0 [emOpenTok, textTok "me", emCloseTok]
    ⟨"￼me￼",
     [⟨"parse-token", [("type", AttrValue.str "em_open")], 0, 1⟩,
      ⟨"parse-token", [("type", AttrValue.str "em_close")], 3, 4⟩,
      ⟨"em", [], 0, 4⟩]⟩ rfl
    ⟨"parse-token", [("type", AttrValue.str "em_close")], 3, 4⟩ (by simp)

/-- C4 counterexample: a token stream consisting of one closing event with no
matching open does NOT abort the conversion — no error is raised and a
Document (here: the empty one) is returned. -/
theorem claim4_counterexample :
    parse env0 [emCloseTok] = some ⟨"", []⟩ ∧ parse env0 [emCloseTok] ≠ none :=
  ⟨rfl, by decide⟩

/-- C4 (amended): a closing event with no matching open raises no
`UnbalancedTreeError`; it silently detaches the traversal position.  If a
later token must attach to the tree the conversion crashes with a generic
runtime error (modelled as `none`), while a trailing unmatched close is
ignored and a (partial) Document is returned. -/
theorem claim4_unbalanced_close (s : String) (rest : List Token) :
    parse env0 (emCloseTok :: textTok s :: rest) = none ∧
    parse env0 [emCloseTok] = some ⟨"", []⟩ ∧
    parse env0 [emOpenTok, emCloseTok, emCloseTok] =
      some ⟨"￼￼",
        [⟨"parse-token", [("type", AttrValue.str "em_open")], 0, 1⟩,
         ⟨"parse-token", [("type", AttrValue.str "em_close")], 1, 2⟩,
         ⟨"em", [], 0, 2⟩]⟩ :=
  ⟨rfl, rfl, rfl⟩

/-- C5 counterexample: two adjacent softbreak tokens contribute "\n\n" — two
newline units, not one. -/
theorem claim5_counterexample :
    parse env0 [sbTok, sbTok] = some ⟨"\n\n", []⟩ ∧ ("\n\n" : String) ≠ "\n" :=
  ⟨rfl, by decide⟩

/-- C5 (amended): softbreak runs are NOT collapsed — every softbreak token
becomes its own "\n" text node, so a run of `k` consecutive softbreaks
contributes exactly `k` newline units to the content. -/
theorem claim5_softbreak_newlines (k : Nat) :
    toTree (List.replicate k sbTok) = some (List.replicate k (Node.text "\n")) ∧
    parse env0 (List.replicate k sbTok) = some ⟨String.mk (List.replicate k '\n'), []⟩ := by
  have htree : toTree (List.replicate k sbTok) = some (List.replicate k (Node.text "\n")) := by
    unfold toTree
    rw [toTreeRun_softbreaks k []]
    simp [collapse, collapseGo]
  refine ⟨htree, ?_⟩
  unfold parse
  rw [htree]
  simp only [Option.some.injEq]
  rw [walks_run]
  rw [nodesAnns_replicate_nl, nodesText_replicate_nl]
  rfl

/-- C6: a list node (`bullet_list` or `ordered_list`, with no custom
handler) gets a final annotation (the last annotation pushed) whose `tight`
attribute is the computed tightness flag, and that flag is true iff some
item child has a paragraph child whose open token is flagged hidden. -/
theorem claim6_list_tight (env : Env) (name : String) (o : Token) (cls : Option Token)
    (children : List Node) (st : ParserState)
    (hname : name = "bullet_list" ∨ name = "ordered_list")
    (hh : env.handlers name = none) :
    ∃ a : Annotation ,
      ((walkNode env (Node.elem name o cls children) st).annotations).getLast? = some a ∧
      a.type = name ∧
      a.attributes.lookup "tight" = some (AttrValue.bool (isTight children)) ∧
      (isTight children = true ↔
        ∃ item ∈ children, ∃ c ∈ item.children, c.name = "paragraph" ∧ c.openHidden = true) := by
  have hnh : name ≠ "heading" := by rcases hname with h | h <;> subst h <;> decide
  have hnf : name ≠ "fence" := by rcases hname with h | h <;> subst h <;> decide
  have hmunge : mungeOpen name o children =
      o.pushAttr ("tight", AttrValue.bool (isTight children)) := by
    rcases hname with h | h <;> subst h <;> simp [mungeOpen]
  refine ⟨finalAnnAt env (Node.elem name o cls children) st.content.length,
    ?_, ?_, ?_, isTight_iff children⟩
  · rw [walk_run]
    simp only []
    rw [List.getLast?_append_of_ne_nil _ (show nodeAnns env (Node.elem name o cls children)
      st.content.length ≠ [] from by simp [nodeAnns])]
    exact nodeAnns_elem_getLast env name o cls children st.content.length
  · simp [finalAnnAt]
  · simp only [finalAnnAt]
    rw [hmunge]
    simp only [closeAttributes, hnh, hnf, if_false, hh, if_neg]
    rw [getAttributes_pushAttr]
    exact lookup_setAttr_self _ _ _

theorem claim6_list_tight_witness :
    (∃ a : Annotation ,
      ((walkNode env0 (Node.elem "bullet_list" listTok none
          [Node.elem "list_item" itemTok none [Node.elem "paragraph" hidParaTok none []],
           Node.elem "list_item" itemTok none [Node.elem "paragraph" plainParaTok none []]])
        ⟨"", []⟩).annotations).getLast? = some a ∧
      a.type = "bullet_list" ∧
      a.attributes.lookup "tight" =
        some (AttrValue.bool (isTight
          [Node.elem "list_item" itemTok none [Node.elem "paragraph" hidParaTok none []],
           Node.elem "list_item" itemTok none [Node.elem "paragraph" plainParaTok none []]])) ∧
      (isTight
          [Node.elem "list_item" itemTok none [Node.elem "paragraph" hidParaTok none []],
           Node.elem "list_item" itemTok none [Node.elem "paragraph" plainParaTok none []]] = true ↔
        ∃ item ∈
          [Node.elem "list_item" itemTok none [Node.elem "paragraph" hidParaTok none []],
           Node.elem "list_item" itemTok none [Node.elem "paragraph" plainParaTok none []]],
          ∃ c ∈ item.children, c.name = "paragraph" ∧ c.openHidden = true)) ∧
    isTight
      [Node.elem "list_item" itemTok none [Node.elem "paragraph" hidParaTok none []],
       Node.elem "list_item" itemTok none [Node.elem "paragraph" plainParaTok none []]] = true :=
  ⟨claim6_list_tight env0 "bullet_list" listTok none
      [Node.elem "list_item" itemTok none [Node.elem "paragraph" hidParaTok none []],
       Node.elem "list_item" itemTok none [Node.elem "paragraph" plainParaTok none []]]
      ⟨"", []⟩ (Or.inl rfl) rfl,
   by decide⟩

/-- C7: for an image node (with no custom handler), the walk discards the
children after extracting the alt text, so the node contributes exactly its
two placeholders and its three own annotations, no descendant text and no
descendant annotation; the final annotation's `alt` attribute is the
concatenation, in document order, of every literal text value in the
subtree. -/
theorem claim7_image_alt (env : Env) (o : Token) (cls : Option Token)
    (children : List Node) (st : ParserState)
    (hh : env.handlers "image" = none) :
    walkNode env (Node.elem "image" o cls children) st =
      ⟨st.content ++ objStr ++ objStr,
       st.annotations ++
         [⟨"parse-token", [("type", AttrValue.str "image_open")],
            st.content.length, st.content.length + 1⟩,
          ⟨"parse-token", [("type", AttrValue.str "image_close")],
            st.content.length + 1, st.content.length + 2⟩,
          ⟨"image",
            setAttr (getAttributes o) "alt"
              (AttrValue.str (String.join
                ((getText (Node.elem "image" o cls children)).map Node.value))),
            st.content.length, st.content.length + 2⟩]⟩ ∧
    (getText (Node.elem "image" o cls children)).map Node.value = subtreeTextsList children := by
  constructor
  · rw [walk_run]
    have hattrs : closeAttributes env "image" (mungeOpen "image" o children) =
        setAttr (getAttributes o) "alt"
          (AttrValue.str (String.join ((getTextList children).map Node.value))) := by
      simp [mungeOpen, closeAttributes, hh, getAttributes_pushAttr]
    simp [nodeAnns, nodeText, hattrs, getText, String.append_assoc]
  · simpa [getText] using getText_values children

theorem claim7_image_alt_witness :
    walkNode env0
      (Node.elem "image" imgTok none
        [Node.text "a", Node.elem "em" emOpenTok none [Node.text "b"]]) ⟨"", []⟩ =
      ⟨"￼￼",
       [⟨"parse-token", [("type", AttrValue.str "image_open")], 0, 1⟩,
        ⟨"parse-token", [("type", AttrValue.str "image_close")], 1, 2⟩,
        ⟨"image", [("alt", AttrValue.str "ab")], 0, 2⟩]⟩ := by
  rw [(claim7_image_alt env0 imgTok none
    [Node.text "a", Node.elem "em" emOpenTok none [Node.text "b"]] ⟨"", []⟩ rfl).1]
  rfl

/-- C8: at close time (with no custom handlers), a heading's final
annotation carries `level` parsed from the second character of the open
token's tag, and a fence's final annotation carries `info` equal to the
HTML-entity-decoded, whitespace-trimmed raw info string of the open token. -/
theorem claim8_heading_level_fence_info (env : Env) (o : Token) (cls : Option Token)
    (children : List Node) (st : ParserState)
    (hh1 : env.handlers "heading" = none) (hh2 : env.handlers "fence" = none) :
    (∀ d : Char, o.tag.toList.get? 1 = some d → d.isDigit = true →
      ∃ a : Annotation ,
        ((walkNode env (Node.elem "heading" o cls children) st).annotations).getLast? = some a ∧
        a.type = "heading" ∧
        a.attributes.lookup "level" = some (AttrValue.num (d.toNat - 48))) ∧
    (∃ b : Annotation ,
      ((walkNode env (Node.elem "fence" o cls children) st).annotations).getLast? = some b ∧
      b.type = "fence" ∧
      b.attributes.lookup "info" =
        some (AttrValue.str (env.decodeHTML5 (trimString o.info)))) := by
  constructor
  · intro d htag hd
    refine ⟨finalAnnAt env (Node.elem "heading" o cls children) st.content.length, ?_, ?_, ?_⟩
    · rw [walk_run]
      simp only []
      rw [List.getLast?_append_of_ne_nil _ (show nodeAnns env
        (Node.elem "heading" o cls children) st.content.length ≠ [] from by simp [nodeAnns])]
      exact nodeAnns_elem_getLast env "heading" o cls children st.content.length
    · simp [finalAnnAt]
    · simp only [finalAnnAt]
      have hmunge : mungeOpen "heading" o children = o := by simp [mungeOpen]
      rw [hmunge]
      have htag' : o.tag.data[1]? = some d := by
        simpa [String.toList, List.get?_eq_getElem?] using htag
      have hlv : headingLevel o.tag = AttrValue.num (d.toNat - 48) := by
        simp [headingLevel, String.toList, List.get?_eq_getElem?, htag', hd]
      simp [closeAttributes, hh1, hlv, lookup_setAttr_self]
  · refine ⟨finalAnnAt env (Node.elem "fence" o cls children) st.content.length, ?_, ?_, ?_⟩
    · rw [walk_run]
      simp only []
      rw [List.getLast?_append_of_ne_nil _ (show nodeAnns env
        (Node.elem "fence" o cls children) st.content.length ≠ [] from by simp [nodeAnns])]
      exact nodeAnns_elem_getLast env "fence" o cls children st.content.length
    · simp [finalAnnAt]
    · simp only [finalAnnAt]
      have hmunge : mungeOpen "fence" o children = o := by simp [mungeOpen]
      rw [hmunge]
      simp [closeAttributes, hh2, lookup_setAttr_self]

theorem claim8_heading_level_fence_info_witness :
    (∃ a : Annotation ,
      ((walkNode env0 (Node.elem "heading" h2OpenTok none []) ⟨"", []⟩).annotations).getLast? =
        some a ∧
      a.type = "heading" ∧
      a.attributes.lookup "level" = some (AttrValue.num ('2'.toNat - 48))) ∧
    AttrValue.num ('2'.toNat - 48) = AttrValue.num 2 ∧
    (∃ c : Annotation ,
      ((walkNode env0 (Node.elem "fence" fenceTok none []) ⟨"", []⟩).annotations).getLast? =
        some c ∧
      c.type = "fence" ∧
      c.attributes.lookup "info" =
        some (AttrValue.str (env0.decodeHTML5 (trimString fenceTok.info)))) ∧
    AttrValue.str (env0.decodeHTML5 (trimString fenceTok.info)) = AttrValue.str "rust" :=
  ⟨(claim8_heading_level_fence_info env0 h2OpenTok none [] ⟨"", []⟩ rfl rfl).1
      '2' rfl (by decide),
   by decide,
   (claim8_heading_level_fence_info env0 fenceTok none [] ⟨"", []⟩ rfl rfl).2,
   by decide⟩

/-- C9: a token that falls through to the atomic-leaf branch (no softbreak,
not text, not inline, no children, nesting neither 1 nor -1) becomes a node
whose open and close payloads are that same single token, with exactly one
synthetic text child holding the token's content; for inline code spans the
content is padded with a leading space when its first character is a
backtick and a trailing space when its last character is a backtick. -/
theorem claim9_atomic_leaf (ty tg : String) (nest : Int) (cont : String)
    (ats : List (String × AttrValue)) (hid : Bool) (inf : String) (st : TreeSt)
    (h1 : ¬(tg = "br" ∧ ty = "softbreak")) (h2 : ty ≠ "text") (h3 : ty ≠ "inline")
    (h4 : nest ≠ 1) (h5 : nest ≠ -1) :
    toTreeStep (Token.mk ty tg nest cont [] ats hid inf) st =
      st.pushNode (Node.elem ty (Token.mk ty tg nest cont [] ats hid inf)
        (some (Token.mk ty tg nest cont [] ats hid inf))
        [Node.text (if ty = "code_inline" then padInlineCode cont else cont)]) ∧
    ∀ c : String, padInlineCode c =
      (if c.toList.head? = some backquoteChar then " " else "") ++ c ++
      (if c.toList.getLast? = some backquoteChar then " " else "") := by
  constructor
  · simp only [toTreeStep]
    rw [if_neg h1, if_neg h2, if_neg h3, if_neg (by simp), if_neg h4, if_neg h5]
    by_cases hdead : st.dead
    · simp [TreeSt.pushNode, hdead]
    · simp [TreeSt.pushNode, hdead]
  · intro c
    by_cases hh1 : c.toList.head? = some backquoteChar
    · have hnil : c.toList ≠ [] := by
        intro hceq
        rw [hceq] at hh1
        simp at hh1
      have hlast : (' ' :: c.toList).getLast? = c.toList.getLast? := by
        cases hcd : c.toList with
        | nil => exact absurd hcd hnil
        | cons x l => simp [List.getLast?_cons_cons]
      have hh1d : c.data.head? = some backquoteChar := hh1
      have hlastd : (' ' :: c.data).getLast? = c.data.getLast? := hlast
      have hxd : (" " ++ c).data = ' ' :: c.data := by simp
      by_cases hh2 : c.data.getLast? = some backquoteChar <;>
        simp [padInlineCode, hh1d, hxd, hlastd, hh2, String.append_assoc]
    · have hh1d : ¬c.data.head? = some backquoteChar := hh1
      by_cases hh2 : c.data.getLast? = some backquoteChar <;>
        simp [padInlineCode, hh1d, hh2, String.append_assoc]

theorem claim9_atomic_leaf_witness :
    toTreeStep (Token.mk "code_inline" "code" 0 "`x`" [] [] false "") ⟨[], [], false⟩ =
      some ⟨[],
        [Node.elem "code_inline" (Token.mk "code_inline" "code" 0 "`x`" [] [] false "")
          (some (Token.mk "code_inline" "code" 0 "`x`" [] [] false ""))
          [Node.text " `x` "]], false⟩ ∧
    padInlineCode "`x`" = " `x` " := by
  have h := claim9_atomic_leaf "code_inline" "code" 0 "`x`" [] false "" ⟨[], [], false⟩
    (by decide) (by decide) (by decide) (by decide) (by decide)
  rw [h.1]
  exact ⟨rfl, rfl⟩

/-- C10 counterexample: an image whose subtree holds one literal text unit
and one element produces a content buffer of length 2 (just the image's own
two placeholders) — not `total text + 2 * number of non-text nodes = 5`,
because an image's children are discarded before the walk. -/
theorem claim10_counterexample :
    toTree [imgTok] =
      some [Node.elem "image" imgTok none
        [Node.text "a", Node.elem "em" emOpenTok (some emCloseTok) []]] ∧
    rawTextLenList
        [Node.elem "image" imgTok none
          [Node.text "a", Node.elem "em" emOpenTok (some emCloseTok) []]] +
      2 * rawElemCountList
        [Node.elem "image" imgTok none
          [Node.text "a", Node.elem "em" emOpenTok (some emCloseTok) []]] = 5 ∧
    (∃ ps : ParserState, parse env0 [imgTok] = some ps ∧ ps.content.length = 2) ∧
    (2 : Nat) ≠ 5 :=
  ⟨rfl, rfl,
   ⟨⟨"￼￼",
     [⟨"parse-token", [("type", AttrValue.str "image_open")], 0, 1⟩,
      ⟨"parse-token", [("type", AttrValue.str "image_close")], 1, 2⟩,
      ⟨"image", [("alt", AttrValue.str "a")], 0, 2⟩]⟩, rfl, rfl⟩,
   by decide⟩

/-- C10 (amended): the placeholder unit is U+FFFC and stays in the published
content; every node the walk visits contributes its literal text plus two
placeholder units per element, where text and elements inside an image's
discarded subtree contribute nothing; a childless non-text node appends
exactly "￼￼" and its final annotation spans `[start, start+2)`. -/
theorem claim10_placeholder_accounting (env : Env) :
    objStr = String.mk [Char.ofNat 0xFFFC] ∧
    (∀ n : Node, (nodeText n).length = effTextLen n + 2 * effElemCount n) ∧
    (∀ nodes : List Node,
      (walkList env nodes ⟨"", []⟩).content.length =
        effTextLenList nodes + 2 * effElemCountList nodes) ∧
    (∀ (name : String) (o : Token) (cls : Option Token) (st : ParserState),
      walkNode env (Node.elem name o cls []) st =
        ⟨st.content ++ "￼￼",
         st.annotations ++
           [⟨"parse-token", [("type", AttrValue.str (name ++ "_open"))],
              st.content.length, st.content.length + 1⟩,
            ⟨"parse-token", [("type", AttrValue.str (name ++ "_close"))],
              st.content.length + 1, st.content.length + 2⟩,
            ⟨name, closeAttributes env name (mungeOpen name o []),
              st.content.length, st.content.length + 2⟩]⟩) := by
  refine ⟨rfl, nodeText_length_eff, ?_, ?_⟩
  · intro nodes
    rw [walks_run]
    simp [String.length_append, nodesText_length_eff]
  · intro name o cls st
    rw [walk_run]
    have h2 : nodeText (Node.elem name o cls []) = "￼￼" := by
      by_cases h : name = "image" <;> simp [nodeText, nodesText, h] <;> rfl
    rw [h2]
    have h3 : nodeAnns env (Node.elem name o cls []) st.content.length =
        [⟨"parse-token", [("type", AttrValue.str (name ++ "_open"))],
           st.content.length, st.content.length + 1⟩,
         ⟨"parse-token", [("type", AttrValue.str (name ++ "_close"))],
           st.content.length + 1, st.content.length + 2⟩,
         ⟨name, closeAttributes env name (mungeOpen name o []),
           st.content.length, st.content.length + 2⟩] := by
      by_cases h : name = "image" <;> simp [nodeAnns, nodesAnns, nodesText, h]
    rw [h3]
